import Mathlib

/-!
Verification development for the example-catalog scraping/ETL pipeline
(`scripts/sync-examples.mjs` and `scripts/sync-snippets.mjs`).

Strings from the scripts are modelled as `List Char`; the regex-driven
scanning functions of the scripts are embedded as structural scanners over
character lists that mirror the JavaScript regular-expression semantics
(leftmost match, alternation order, lazy/greedy quantifiers) of the exact
patterns appearing in the source.
-/

namespace SyncPipeline

/-- Shorthand used in concrete statements. -/
def toL (s : String) : List Char := s.toList

/-- Lower-casing of a character, modelling JavaScript `toLowerCase` on the
ASCII range (the scripts only lower-case ASCII titles/descriptions). -/
def lowC (c : Char) : Char := c.toLower

/-- Case-sensitive literal prefix test. -/
def matchCS : List Char → List Char → Bool
  | [], _ => true
  | _ :: _, [] => false
  | p :: ps, c :: cs => (p == c) && matchCS ps cs

/-- Case-insensitive literal prefix test (for regexes carrying the `i` flag). -/
def matchCI : List Char → List Char → Bool
  | [], _ => true
  | _ :: _, [] => false
  | p :: ps, c :: cs => (lowC p == lowC c) && matchCI ps cs

/-- Case-sensitive substring test (a regex of literal characters, no flags). -/
def hasSub (pat : List Char) : List Char → Bool
  | [] => matchCS pat []
  | c :: cs => matchCS pat (c :: cs) || hasSub pat cs

/-- Case-insensitive substring test (a regex of literal characters, `i` flag). -/
def hasSubCI (pat : List Char) : List Char → Bool
  | [] => matchCI pat []
  | c :: cs => matchCI pat (c :: cs) || hasSubCI pat cs

/-- JavaScript `\s` (the whitespace characters recognised by the regexes
and by `trim`). -/
def wsJS (c : Char) : Bool :=
  let n := c.toNat
  n == 0x20 || n == 0x9 || n == 0xa || n == 0xd || n == 0xb || n == 0xc ||
  n == 0xa0 || n == 0x1680 || (0x2000 ≤ n && n ≤ 0x200a) ||
  n == 0x2028 || n == 0x2029 || n == 0x202f || n == 0x205f ||
  n == 0x3000 || n == 0xfeff

/-- JavaScript line terminators (the characters not matched by `.`). -/
def lineTerm (c : Char) : Bool :=
  c == '\n' || c == '\r' || c.toNat == 0x2028 || c.toNat == 0x2029

/-- JavaScript `String.prototype.trim` on both ends. -/
def trimL (l : List Char) : List Char :=
  ((l.dropWhile wsJS).reverse.dropWhile wsJS).reverse

/-- `decodeEntities` of both scripts: one global left-to-right pass of
`text.replace(/(&amp;|&lt;|&gt;|&quot;|&#39;)/g, m => htmlEntityMap[m])`.
The five named entities are decoded exactly where they occur in the input;
the scan continues after each replacement, so replacement text is never
re-scanned. -/
def decodeEntities : List Char → List Char
  | '&' :: 'a' :: 'm' :: 'p' :: ';' :: rest => '&' :: decodeEntities rest
  | '&' :: 'l' :: 't' :: ';' :: rest => '<' :: decodeEntities rest
  | '&' :: 'g' :: 't' :: ';' :: rest => '>' :: decodeEntities rest
  | '&' :: 'q' :: 'u' :: 'o' :: 't' :: ';' :: rest => '"' :: decodeEntities rest
  | '&' :: '#' :: '3' :: '9' :: ';' :: rest => '\'' :: decodeEntities rest
  | c :: cs => c :: decodeEntities cs
  | [] => []

/-! ## Generic global replace / scan machinery

`replGo m skip l` models a JavaScript global regex replace: at each
position the matcher `m` is tried; on a match it emits the replacement and
jumps past the matched characters (`skip` counts characters still to be
consumed from a previous match); on failure the character is kept and the
scan advances one position.  All matchers used below consume at least one
character when they succeed. -/

def replGo (m : List Char → Option (List Char × Nat)) : Nat → List Char → List Char
  | _, [] => []
  | k + 1, _ :: cs => replGo m k cs
  | 0, c :: cs =>
    match m (c :: cs) with
    | some (repl, consumed) => repl ++ replGo m (consumed - 1) cs
    | none => c :: replGo m 0 cs

/-- `scanGo m skip l`: all non-overlapping leftmost matches of a global
regex, in order (the semantics of repeated `regex.exec`). -/
def scanGo {α : Type} (m : List Char → Option (α × Nat)) : Nat → List Char → List α
  | _, [] => []
  | k + 1, _ :: cs => scanGo m k cs
  | 0, c :: cs =>
    match m (c :: cs) with
    | some (a, consumed) => a :: scanGo m (consumed - 1) cs
    | none => scanGo m 0 cs

/-- First (leftmost) match of a non-global regex: the matcher is tried at
every position in turn (`String.prototype.match`). -/
def firstScan {α : Type} (m : List Char → Option α) : List Char → Option α
  | [] => m []
  | c :: cs =>
    match m (c :: cs) with
    | some a => some a
    | none => firstScan m cs

/-- `[^>]*>`: consume the attribute characters of a tag up to and including
the closing `>`; returns (attribute characters, count consumed, rest). -/
def attrsCut : List Char → Option (List Char × Nat × List Char)
  | [] => none
  | c :: cs =>
    if c == '>' then some ([], 1, cs)
    else (attrsCut cs).map (fun p => (c :: p.1, p.2.1 + 1, p.2.2))

/-- `<name[^>]*>` case-insensitively: returns (attributes, count, rest). -/
def openTagCI (name : List Char) (l : List Char) : Option (List Char × Nat × List Char) :=
  match l with
  | '<' :: rest =>
    if matchCI name rest then
      match attrsCut (rest.drop name.length) with
      | some (attrs, k, r) => some (attrs, 1 + name.length + k, r)
      | none => none
    else none
  | _ => none

/-- Lazy `[\s\S]*?` up to the first case-insensitive occurrence of `close`:
returns (capture, count consumed including `close`). -/
def lazyFindCI (close : List Char) : List Char → Option (List Char × Nat)
  | [] => if matchCI close [] then some ([], close.length) else none
  | c :: cs =>
    if matchCI close (c :: cs) then some ([], close.length)
    else (lazyFindCI close cs).map (fun p => (c :: p.1, p.2 + 1))

/-- Same as `lazyFindCI` but also returns the rest of the input after
`close` (used when scanning continues from the match's end). -/
def lazyRestCI (close : List Char) : List Char → Option (List Char × List Char)
  | [] => if matchCI close [] then some ([], []) else none
  | c :: cs =>
    if matchCI close (c :: cs) then some ([], (c :: cs).drop close.length)
    else (lazyRestCI close cs).map (fun p => (c :: p.1, p.2))

/-! ## Catalog output persistence (Catalog Synchronizer, step 7)

`main` of `sync-examples.mjs` persists with a single
`fs.writeFile(outputPath, JSON.stringify(output, null, 2))` call on the
canonical output path — there is no temporary file and no rename.  A file
system is an association list from paths to contents; a write that is
interrupted after `k` characters leaves the prefix of the new content at
the target path (the previous content of the path is already gone, since a
plain `writeFile` truncates and rewrites in place). -/

abbrev FileSys := List (String × String)

def getFile (fs : FileSys) (p : String) : Option String :=
  (fs.find? (fun e => e.1 == p)).map (fun e => e.2)

def setFile (fs : FileSys) (p c : String) : FileSys :=
  (p, c) :: fs.filter (fun e => !(e.1 == p))

/-- How a write ends: it either completes, or is interrupted after
`written` characters have reached the target. -/
inductive WriteEnd where
  | complete
  | interrupted (written : Nat)
deriving DecidableEq

def strTake (n : Nat) (s : String) : String := String.mk (s.toList.take n)

/-- Semantics of the script's direct `fs.writeFile` on the canonical path. -/
def writeFileDirect (fs : FileSys) (p c : String) : WriteEnd → FileSys
  | .complete => setFile fs p c
  | .interrupted k => setFile fs p (strTake k c)

/-- The persistence step of `main` (sync-examples.mjs lines 509-512): a
single direct write of the serialized dataset to the canonical output path. -/
def persistOutput (fs : FileSys) (outPath json : String) (w : WriteEnd) : FileSys :=
  writeFileDirect fs outPath json w

/-- Modelled from the spec: the write-then-replace persistence that §4.5
step 7 of the spec describes (write a temporary file, then atomically
replace the canonical output; an interrupted write leaves the canonical
output untouched).  This definition follows the spec's words and exists
only to be compared with `persistOutput`, which is what the code does. -/
def specAtomicPersist (fs : FileSys) (outPath json : String) : WriteEnd → FileSys
  | .complete => setFile fs outPath json
  | .interrupted _ => fs

/-! ## Resilient Fetcher (`fetchWithRetry`)

The loop of `fetchWithRetry` in both scripts, with the network abstracted
as an oracle giving each attempt's outcome.  The returned `Nat` counts the
fetch attempts actually performed. -/

inductive AttemptResult where
  | success (body : String)
  | httpError (status : Nat)
  | netError (msg : String)
deriving DecidableEq

def isSuccess : AttemptResult → Bool
  | .success _ => true
  | _ => false

/-- The error recorded in `lastError` for a failed attempt:
`new Error("Failed to fetch " + url + ": " + response.status)` for a
non-ok response, the thrown error itself otherwise. -/
def errMsg (url : String) : AttemptResult → String
  | .success _ => ""
  | .httpError s => "Failed to fetch " ++ url ++ ": " ++ toString s
  | .netError m => m

/-- The retry loop: `attempt` is the index of the next attempt, `remaining`
the attempts still allowed, `lastError` the value of the `lastError`
variable (`none` is the initial `undefined`).  Returns the result together
with the number of attempts performed. -/
def fetchGo (url : String) (oracle : Nat → AttemptResult) :
    Nat → Nat → Option String → Except (Option String) String × Nat
  | attempt, 0, lastError => (Except.error lastError, attempt)
  | attempt, r + 1, _ =>
    match oracle attempt with
    | .success body => (Except.ok body, attempt + 1)
    | .httpError s =>
      fetchGo url oracle (attempt + 1) r (some (errMsg url (.httpError s)))
    | .netError m =>
      fetchGo url oracle (attempt + 1) r (some (errMsg url (.netError m)))

/-- `fetchWithRetry(url, attempts)` of both scripts. -/
def fetchWithRetry (url : String) (oracle : Nat → AttemptResult) (attempts : Nat) :
    Except (Option String) String × Nat :=
  fetchGo url oracle 0 attempts none

/-! ## Text Extraction Utilities (`sync-examples.mjs`) -/

/-- Matcher for one occurrence of `<[^>]*>` (a `<` with a later `>`);
the replacement is empty. -/
def remTagM (l : List Char) : Option (List Char × Nat) :=
  match l with
  | '<' :: cs => (attrsCut cs).map (fun p => ([], 1 + p.2.1))
  | _ => none

/-- `text.replace(/<[^>]*>/g, "")`. -/
def removeTags (l : List Char) : List Char := replGo remTagM 0 l

/-- `stripTags`: remove markup, trim, then decode entities. -/
def stripTags (l : List Char) : List Char := decodeEntities (trimL (removeTags l))

/-- Candidate splits for a greedy `[^>]+`: pairs (count ≥ 1, rest), in
decreasing count order (a greedy quantifier backtracks from the longest). -/
def nonGtCands : List Char → List (Nat × List Char)
  | [] => []
  | c :: cs =>
    if c == '>' then []
    else (1, cs) :: (nonGtCands cs).map (fun p => (p.1 + 1, p.2))

/-- `[^"]*"`: capture up to the closing quote; (capture, count incl. quote). -/
def quoteCut : List Char → Option (List Char × Nat)
  | [] => none
  | c :: cs =>
    if c == '"' then some ([], 1)
    else (quoteCut cs).map (fun p => (c :: p.1, p.2 + 1))

/-- Matcher at one position for
`<meta[^>]+(?:property|name)="NAME"[^>]+content="([^"]*)"` (flag `i`):
returns the captured content. -/
def metaM (name : List Char) (l : List Char) : Option (List Char) :=
  match l with
  | '<' :: rest =>
    if matchCI (toL "meta") rest then
      ((nonGtCands (rest.drop 4)).reverse.findSome? (fun p1 =>
        let r1 := p1.2
        let afterAttr : Option (List Char) :=
          if matchCI (toL "property=\"") r1 then some (r1.drop 10)
          else if matchCI (toL "name=\"") r1 then some (r1.drop 6)
          else none
        afterAttr.bind (fun r2 =>
          if matchCI (name ++ ['"']) r2 then
            let r3 := r2.drop (name.length + 1)
            (nonGtCands r3).reverse.findSome? (fun p2 =>
              if matchCI (toL "content=\"") p2.2 then
                (quoteCut (p2.2.drop 9)).map (fun q => q.1)
              else none)
          else none)))
    else none
  | _ => none

/-- `getMetaContent(html, name)`. -/
def getMetaContent (html name : List Char) : List Char :=
  match firstScan (metaM name) html with
  | some content => stripTags content
  | none => []

/-- Matcher for `<h1[^>]*>([\s\S]*?)<\/h1>` (flag `i`) at one position:
returns (capture, rest after the whole match). -/
def h1M (l : List Char) : Option (List Char × List Char) :=
  match l with
  | '<' :: c1 :: c2 :: rest =>
    if lowC c1 == 'h' && c2 == '1' then
      match attrsCut rest with
      | some (_, _, afterOpen) => lazyRestCI (toL "</h1>") afterOpen
      | none => none
    else none
  | _ => none

/-- Matcher for `<p[^>]*>([\s\S]*?)<\/p>` (flags `gi`) at one position:
returns (capture, count consumed). -/
def pM (l : List Char) : Option (List Char × Nat) :=
  match l with
  | '<' :: c1 :: rest =>
    if lowC c1 == 'p' then
      match attrsCut rest with
      | some (_, k, afterOpen) =>
        (lazyFindCI (toL "</p>") afterOpen).map (fun q => (q.1, 2 + k + q.2))
      | none => none
    else none
  | _ => none

/-- The paragraph filter inside `getDescription`: the stripped text must be
non-empty, not contain "meta property", and not begin (after optional
whitespace) with `<meta` or `<iframe`. -/
def pQualifies (raw : List Char) : Bool :=
  let text := stripTags raw
  !text.isEmpty &&
  !hasSubCI (toL "meta property") text &&
  !matchCI (toL "<meta") (text.dropWhile wsJS) &&
  !matchCI (toL "<iframe") (text.dropWhile wsJS)

/-- The meta fallback of `getDescription`: `og:description` first, then
plain `description` (JavaScript `||` treats the empty string as false). -/
def descFallback (html : List Char) : List Char :=
  let og := getMetaContent html (toL "og:description")
  if og.isEmpty then getMetaContent html (toL "description") else og

/-- `getDescription(html)` of `sync-examples.mjs` (lines 76-99): scan the
paragraphs after the first `<h1>`, return the stripped text of the first
qualifying one, else fall back to the meta tags.  Note: the filter has no
`<img>` test — a paragraph containing an image is skipped only when its
stripped text is empty or matches one of the three textual tests. -/
def getDescription (html : List Char) : List Char :=
  match firstScan h1M html with
  | some (_, after) =>
    match (scanGo pM 0 after).find? pQualifies with
    | some raw => stripTags raw
    | none => descFallback html
  | none => descFallback html

/-! ## Classifier (`classifyTag`, `classifyLevel`) -/

/-- Lower-cased `title ++ " " ++ description`. -/
def textOf (title description : List Char) : List Char :=
  (title ++ ' ' :: description).map lowC

/-- A keyword-alternation regex test: does the text contain any of the
literal alternatives? -/
def anyPat (pats : List (List Char)) (text : List Char) : Bool :=
  pats.any (fun p => hasSub p text)

/-- The ordered rules of `classifyTag`, exactly as in the source. -/
def tagRules : List (List (List Char) × List Char) :=
  [ ([toL "terrain", toL "3d", toL "extrusion", toL "globe", toL "sky", toL "fog"],
      toL "3D & Terrain"),
    ([toL "animate", toL "animation", toL "fly to", toL "camera", toL "easing", toL "orbit"],
      toL "Animation"),
    ([toL "cluster", toL "performance", toL "pmtiles", toL "large dataset", toL "optimi",
      toL "realtime", toL "world copy"], toL "Performance"),
    ([toL "popup", toL "hover", toL "click", toL "drag", toL "gesture", toL "control",
      toL "navigation", toL "interactive", toL "geocode", toL "draw", toL "measure"],
      toL "Interaction"),
    ([toL "style", toL "label", toL "text", toL "font", toL "color", toL "pattern",
      toL "symbol", toL "icon", toL "expression"], toL "Style"),
    ([toL "geojson", toL "vector", toL "raster", toL "tile", toL "source", toL "heatmap",
      toL "data"], toL "Data"),
    ([toL "slider", toL "scroll", toL "sync", toL "story", toL "timeline", toL "filter"],
      toL "UI Patterns") ]

/-- The ordered rules of `classifyLevel`, exactly as in the source
(`deck\.gl` and `three\.js` there are single-escaped, i.e. literal dots). -/
def levelRules : List (List (List Char) × List Char) :=
  [ ([toL "custom layer", toL "deck.gl", toL "three.js", toL "babylon", toL "pmtiles",
      toL "terrain", toL "3d", toL "advanced", toL "scripting"], toL "Advanced"),
    ([toL "animate", toL "cluster", toL "expression", toL "heatmap", toL "vector",
      toL "raster", toL "data-driven", toL "filter", toL "style"], toL "Intermediate") ]

/-- `classifyTag(title, description)`. -/
def classifyTag (title description : List Char) : List Char :=
  match tagRules.find? (fun r => anyPat r.1 (textOf title description)) with
  | some r => r.2
  | none => toL "Basics"

/-- `classifyLevel(title, description)`. -/
def classifyLevel (title description : List Char) : List Char :=
  match levelRules.find? (fun r => anyPat r.1 (textOf title description)) with
  | some r => r.2
  | none => toL "Beginner"

/-! ## Snippet Synchronizer (`sync-snippets.mjs`)

Code-block extraction, snippet selection and the run's counting loop. -/

/-- `\s*` (greedy, deterministic before a non-whitespace literal):
returns (count consumed, rest). -/
def wsCut : List Char → Nat × List Char
  | [] => (0, [])
  | c :: cs =>
    if wsJS c then
      let p := wsCut cs
      (p.1 + 1, p.2)
    else (0, c :: cs)

/-- Matcher for `<br\s*\/?>` (flags `gi`): replaced by a newline. -/
def brM (l : List Char) : Option (List Char × Nat) :=
  match l with
  | '<' :: c1 :: c2 :: rest =>
    if lowC c1 == 'b' && lowC c2 == 'r' then
      let p := wsCut rest
      match p.2 with
      | '/' :: '>' :: _ => some (['\n'], 3 + p.1 + 2)
      | '>' :: _ => some (['\n'], 3 + p.1 + 1)
      | _ => none
    else none
  | _ => none

/-- `\r\n` → `\n` (the final `.replace(/\r\n/g, "\n")`). -/
def normNl : List Char → List Char
  | '\r' :: '\n' :: rest => '\n' :: normNl rest
  | c :: rest => c :: normNl rest
  | [] => []

/-- `toPlainCode`: `<br>` tags to newlines, strip remaining tags, decode
entities, normalize CRLF. -/
def toPlainCode (html : List Char) : List Char :=
  normNl (decodeEntities (removeTags (replGo brM 0 html)))

/-- Lazy `[\s\S]*?` candidates before a case-insensitive `close`: triples
(capture, count consumed including `close`, rest), in increasing capture
length (the order a lazy quantifier backtracks through). -/
def lazyAllCands (close : List Char) : List Char → List (List Char × Nat × List Char)
  | [] => if matchCI close [] then [([], close.length, [])] else []
  | c :: cs =>
    (if matchCI close (c :: cs) then [([], close.length, (c :: cs).drop close.length)]
     else []) ++
    (lazyAllCands close cs).map (fun p => (c :: p.1, p.2.1 + 1, p.2.2))

/-- Lazy `.*?` candidates before a case-insensitive `close` (no captures
needed; `.` does not match line terminators): pairs (count, rest). -/
def lazyDotCands (close : List Char) : List Char → List (Nat × List Char)
  | [] => if matchCI close [] then [(close.length, [])] else []
  | c :: cs =>
    (if matchCI close (c :: cs) then [(close.length, (c :: cs).drop close.length)]
     else []) ++
    (if lineTerm c then []
     else (lazyDotCands close cs).map (fun p => (p.1 + 1, p.2)))

/-- The part `\s*<code([^>]*)>([\s\S]*?)<\/code>\s*<\/pre>` of the
code-block regex: returns ((code attrs, inner html), count consumed).
The lazy quantifier backtracks through successive `</code>` occurrences
until `\s*<\/pre>` matches after one. -/
def codePart (l : List Char) : Option ((List Char × List Char) × Nat) :=
  let w := wsCut l
  match openTagCI (toL "code") w.2 with
  | none => none
  | some (attrs, k, r2) =>
    ((lazyAllCands (toL "</code>") r2).findSome? (fun cand =>
      let w2 := wsCut cand.2.2
      if matchCI (toL "</pre>") w2.2 then
        some ((attrs, cand.1), w.1 + k + cand.2.1 + w2.1 + 6)
      else none))

/-- The optional group `(?:\s*<span[^>]*>.*?<\/span>)?` followed by
`codePart`: the group is tried first (backtracking through the lazy
`.*?`), and skipped if no continuation succeeds. -/
def preAfter (l : List Char) : Option ((List Char × List Char) × Nat) :=
  let w := wsCut l
  match openTagCI (toL "span") w.2 with
  | some (_, k, r2) =>
    match (lazyDotCands (toL "</span>") r2).findSome? (fun cand =>
        (codePart cand.2).map (fun res => (res.1, w.1 + k + cand.1 + res.2))) with
    | some res => some res
    | none => codePart l
  | none => codePart l

/-- Matcher at one position for the whole code-block regex
`<pre[^>]*>(?:\s*<span[^>]*>.*?<\/span>)?\s*<code([^>]*)>([\s\S]*?)<\/code>\s*<\/pre>`
(flags `gi`): returns ((code attrs, inner html), count consumed). -/
def preM (l : List Char) : Option ((List Char × List Char) × Nat) :=
  match openTagCI (toL "pre") l with
  | none => none
  | some (_, n1, r1) =>
    (preAfter r1).map (fun p => (p.1, n1 + p.2))

/-- `attrs.match(/class="([^"]+)"/i)`: the language hint. -/
def classM (l : List Char) : Option (List Char) :=
  if matchCI (toL "class=\"") l then
    (quoteCut (l.drop 7)).bind (fun p => if p.1.isEmpty then none else some p.1)
  else none

def classOf (attrs : List Char) : List Char :=
  match firstScan classM attrs with
  | some lang => lang
  | none => []

/-- One extracted code block: language hint and plain code. -/
structure CodeBlock where
  lang : List Char
  code : List Char
deriving DecidableEq

/-- `extractCodeBlocks(html)`: every `<pre>...<code>...</code></pre>`
block, converted to plain code; blocks whose plain code trims to empty are
discarded (`if (code) blocks.push(...)`). -/
def extractCodeBlocks (html : List Char) : List CodeBlock :=
  (scanGo preM 0 html).filterMap (fun pr =>
    let code := trimL (toPlainCode pr.2)
    if code.isEmpty then none else some ⟨classOf pr.1, code⟩)

/-- The score assigned by `pickSnippet`. -/
def blockScore (b : CodeBlock) : Nat :=
  b.code.length +
  (if hasSubCI (toL "<!doctype html>") b.code then 5000 else 0) +
  (if hasSubCI (toL "maplibregl") b.code then 2000 else 0) +
  (if hasSubCI (toL "language-html") b.lang then 1000 else 0) +
  (if hasSubCI (toL "language-js") b.lang || hasSubCI (toL "language-javascript") b.lang ||
      hasSubCI (toL "language-ts") b.lang || hasSubCI (toL "language-typescript") b.lang
   then 500 else 0)

/-- Stable descending insertion (`scored.sort((a, b) => b.score - a.score)`
with the ES2019 stability guarantee): an element is placed before the
first element of no greater score, so equal scores keep first-seen order. -/
def insDesc (b : CodeBlock) : List CodeBlock → List CodeBlock
  | [] => [b]
  | a :: rest =>
    if blockScore a ≤ blockScore b then b :: a :: rest else a :: insDesc b rest

/-- Stable sort by descending score. -/
def sortDesc : List CodeBlock → List CodeBlock
  | [] => []
  | b :: rest => insDesc b (sortDesc rest)

/-- `pickSnippet(blocks)`: `null` on no blocks, else the code of
`scored[0]` after the stable descending sort. -/
def pickSnippet (blocks : List CodeBlock) : Option (List Char) :=
  match blocks with
  | [] => none
  | _ :: _ => (sortDesc blocks).head?.map (fun b => b.code)

/-- The first block of maximal score (earliest among maxima), for
characterizing the sort's head. -/
def firstMax : List CodeBlock → Option CodeBlock
  | [] => none
  | b :: rest =>
    match firstMax rest with
    | none => some b
    | some m => if blockScore b < blockScore m then some m else some b

/-! ### The run loop of `main` (sync-snippets.mjs lines 77-141) -/

/-- One entry of the input `examples` array, as far as the snippet run
reads it (`none` models an absent field; the empty string is also falsy). -/
structure ExampleRec where
  slug : Option String
  url : Option String
deriving DecidableEq

def truthy : Option String → Bool
  | none => false
  | some s => !s.isEmpty

/-- One fetch task (lines 91-99): built only when both slug and url are
truthy; the output path is derived from the slug. -/
structure SnipTask where
  slug : String
  url : String
  outPath : String
deriving DecidableEq

def taskOf (e : ExampleRec) : Option SnipTask :=
  if truthy e.slug && truthy e.url then
    some ⟨e.slug.getD "", e.url.getD "", e.slug.getD "" ++ ".html"⟩
  else none

/-- One iteration of the task-building loop. -/
def phase1Step (acc : Nat × List SnipTask) (e : ExampleRec) : Nat × List SnipTask :=
  match taskOf e with
  | none => (acc.1 + 1, acc.2)
  | some t => (acc.1, acc.2 ++ [t])

/-- Task-building loop: entries without slug or url count as skipped. -/
def phase1 (examples : List ExampleRec) : Nat × List SnipTask :=
  examples.foldl phase1Step (0, [])

/-- One iteration of the existing-file check. -/
def phase2Step (fileExists : String → Bool) (acc : Nat × List SnipTask)
    (t : SnipTask) : Nat × List SnipTask :=
  if fileExists t.outPath then (acc.1 + 1, acc.2) else (acc.1, acc.2 ++ [t])

/-- Existing-file check (lines 101-111): tasks whose output file already
exists count as skipped, the rest stay pending. -/
def phase2 (fileExists : String → Bool) (tasks : List SnipTask) : Nat × List SnipTask :=
  tasks.foldl (phase2Step fileExists) (0, [])

/-- `pending` sliced into batches of 6 (lines 113-115); the fuel is the
list length, which suffices since each step consumes at least one task. -/
def batchesF : Nat → List SnipTask → List (List SnipTask)
  | 0, _ => []
  | _, [] => []
  | fuel + 1, t :: ts => (t :: ts).take 6 :: batchesF fuel ((t :: ts).drop 6)

def batches (l : List SnipTask) : List (List SnipTask) := batchesF l.length l

/-- One task's outcome (lines 117-127): the network is an oracle from the
task's url to the fetched page (`none`: the fetch failed after retries).
A fetched page yields a fulfilled task exactly when a snippet is found. -/
def taskOutcome (env : String → Option String) (t : SnipTask) : Option (List Char) :=
  match env t.url with
  | none => none
  | some html => pickSnippet (extractCodeBlocks (toL html))

/-- Settling one task inside a batch: fulfilled is counted as created and
its snippet written, rejected is counted as failed. -/
def batchStep (env : String → Option String)
    (acc : (Nat × Nat) × List (String × List Char)) (t : SnipTask) :
    (Nat × Nat) × List (String × List Char) :=
  match taskOutcome env t with
  | some snip => ((acc.1.1 + 1, acc.1.2), acc.2 ++ [(t.outPath, snip)])
  | none => ((acc.1.1, acc.1.2 + 1), acc.2)

/-- Settle one batch (`Promise.allSettled` + the counting loop): returns
((created, failed), written files). -/
def runBatch (env : String → Option String) (batch : List SnipTask) :
    (Nat × Nat) × List (String × List Char) :=
  batch.foldl (batchStep env) ((0, 0), [])

structure RunCounts where
  created : Nat
  skipped : Nat
  failed : Nat
deriving DecidableEq

/-- Accumulating one batch's results into the run totals. -/
def sumStep (env : String → Option String)
    (acc : (Nat × Nat) × List (String × List Char)) (b : List SnipTask) :
    (Nat × Nat) × List (String × List Char) :=
  ((acc.1.1 + (runBatch env b).1.1, acc.1.2 + (runBatch env b).1.2),
    acc.2 ++ (runBatch env b).2)

/-- The whole snippet run: counts and the files written. -/
def runSnippets (examples : List ExampleRec) (fileExists : String → Bool)
    (env : String → Option String) : RunCounts × List (String × List Char) :=
  let p1 := phase1 examples
  let p2 := phase2 fileExists p1.2
  let step := (batches p2.2).foldl (sumStep env) ((0, 0), [])
  (⟨step.1.1, p1.1 + p2.1, step.1.2⟩, step.2)

/-! ## Translator (`sync-examples.mjs` lines 257-469)

The phrase/word substitution pass, the regex templates for titles and
descriptions, and the `isMostlyChinese` heuristic, embedded exactly. -/

def asciiLetter (c : Char) : Bool := ('A' ≤ c && c ≤ 'Z') || ('a' ≤ c && c ≤ 'z')

/-- JavaScript `\w`. -/
def wordChar (c : Char) : Bool := asciiLetter c || ('0' ≤ c && c ≤ '9') || c == '_'

/-- `\b` before the match: the previous character (if any) is a non-word
character (every table entry begins with a word character). -/
def boundaryOkB : Option Char → Bool
  | none => true
  | some c => !wordChar c

/-- `\b` after the match: the next character (if any) is a non-word
character (every table entry ends with a word character). -/
def endBoundary : List Char → Bool
  | [] => true
  | c :: _ => !wordChar c

/-- Matcher for one whole-word case-insensitive replacement
`new RegExp("\\b" + from + "\\b", "gi")`. -/
def wordM (fromW toW : List Char) (prev : Option Char) (l : List Char) :
    Option (List Char × Nat) :=
  if boundaryOkB prev && matchCI fromW l && endBoundary (l.drop fromW.length) then
    some (toW, fromW.length)
  else none

/-- Global replace with boundary context: like `replGo` but the matcher
also sees the previous character of the original string. -/
def replBGo (m : Option Char → List Char → Option (List Char × Nat)) :
    Option Char → Nat → List Char → List Char
  | _, _, [] => []
  | _, k + 1, c :: cs => replBGo m (some c) k cs
  | prev, 0, c :: cs =>
    match m prev (c :: cs) with
    | some (repl, consumed) => repl ++ replBGo m (some c) (consumed - 1) cs
    | none => c :: replBGo m (some c) 0 cs

/-- `phraseMap` of `main`, in source order. -/
def phraseMap : List (List Char × List Char) :=
  [ (toL "add a", toL "添加"), (toL "add an", toL "添加"), (toL "add", toL "添加"),
    (toL "create and style", toL "创建并样式化"), (toL "create", toL "创建"),
    (toL "display", toL "显示"), (toL "change", toL "切换"), (toL "style", toL "样式化"),
    (toL "animate", toL "动画"), (toL "fly to", toL "飞行到"),
    (toL "geocode with", toL "使用"), (toL "sync movement of", toL "同步"),
    (toL "enable", toL "启用"), (toL "use", toL "使用"), (toL "render", toL "渲染"),
    (toL "visualize", toL "可视化"), (toL "filter", toL "过滤"),
    (toL "search", toL "搜索"), (toL "load", toL "加载"), (toL "show", toL "显示"),
    (toL "build", toL "构建"), (toL "based on", toL "基于"),
    (toL "in an", toL "在一个"), (toL "in a", toL "在一个"), (toL "in the", toL "在"),
    (toL "to the", toL "到"), (toL "to a", toL "到一个"), (toL "to", toL "到"),
    (toL "with", toL "使用"), (toL "using", toL "使用") ]

/-- `wordMap` of `main`, in source order (duplicate entries included). -/
def wordMap : List (List Char × List Char) :=
  [ (toL "map", toL "地图"), (toL "maps", toL "地图"), (toL "a", []), (toL "an", []),
    (toL "the", []), (toL "marker", toL "标记"), (toL "markers", toL "标记"),
    (toL "layer", toL "图层"), (toL "layers", toL "图层"),
    (toL "source", toL "数据源"), (toL "sources", toL "数据源"),
    (toL "tiles", toL "瓦片"), (toL "vector", toL "矢量"), (toL "raster", toL "栅格"),
    (toL "geojson", toL "GeoJSON"), (toL "polygon", toL "多边形"),
    (toL "line", toL "线"), (toL "lines", toL "线"), (toL "heatmap", toL "热力图"),
    (toL "cluster", toL "聚类"), (toL "clusters", toL "聚类"),
    (toL "label", toL "标签"), (toL "labels", toL "标签"),
    (toL "icon", toL "图标"), (toL "icons", toL "图标"),
    (toL "control", toL "控件"), (toL "controls", toL "控件"),
    (toL "navigation", toL "导航"), (toL "terrain", toL "地形"),
    (toL "globe", toL "地球"), (toL "camera", toL "相机"), (toL "popup", toL "弹窗"),
    (toL "hover", toL "悬停"), (toL "click", toL "点击"), (toL "drag", toL "拖拽"),
    (toL "pattern", toL "图案"), (toL "language", toL "语言"),
    (toL "time", toL "时间"), (toL "slider", toL "滑块"), (toL "scroll", toL "滚动"),
    (toL "story", toL "叙事"), (toL "video", toL "视频"), (toL "image", toL "图像"),
    (toL "example", toL "示例"), (toL "examples", toL "示例"),
    (toL "buildings", toL "建筑"), (toL "building", toL "建筑"),
    (toL "model", toL "模型"), (toL "models", toL "模型"),
    (toL "shadow", toL "阴影"), (toL "custom", toL "自定义"),
    (toL "simple", toL "简单"), (toL "multiple", toL "多个"),
    (toL "interactive", toL "交互式"), (toL "browser", toL "浏览器"),
    (toL "data-driven", toL "数据驱动"), (toL "data", toL "数据"),
    (toL "point", toL "点"), (toL "points", toL "点"), (toL "circle", toL "圆"),
    (toL "fill", toL "填充"), (toL "symbol", toL "符号"), (toL "style", toL "样式"),
    (toL "filter", toL "过滤"), (toL "zoom", toL "缩放"), (toL "rotate", toL "旋转"),
    (toL "pan", toL "平移"), (toL "move", toL "移动"), (toL "measure", toL "测量"),
    (toL "draw", toL "绘制"), (toL "elevation", toL "高程"),
    (toL "extrusion", toL "拉伸"), (toL "sky", toL "天空"), (toL "fog", toL "雾"),
    (toL "actual", toL "真实"), (toL "line", toL "线"), (toL "routes", toL "路线"),
    (toL "route", toL "路线"), (toL "geocode", toL "地理编码"),
    (toL "globe", toL "地球"), (toL "hillshade", toL "山体阴影"),
    (toL "contour", toL "等高线"), (toL "raster-dem", toL "栅格高程"),
    (toL "satellite", toL "卫星"), (toL "streets", toL "街道"),
    (toL "text", toL "文本"), (toL "font", toL "字体"), (toL "color", toL "颜色"),
    (toL "colors", toL "颜色"), (toL "opacity", toL "透明度"),
    (toL "3d", toL "3D"), (toL "pmtiles", toL "PMTiles"), (toL "webgl", toL "WebGL") ]

/-- Matcher for `\s{2,}` (replaced by a single space). -/
def ws2M (l : List Char) : Option (List Char × Nat) :=
  match l with
  | a :: b :: rest =>
    if wsJS a && wsJS b then some ([' '], 2 + (rest.takeWhile wsJS).length) else none
  | _ => none

/-- `translateText`: sequential whole-word replace passes for every
phrase-map entry then every word-map entry, then whitespace collapsing
(`\s{2,}` → one space) and trim. -/
def translateText (text : List Char) : List Char :=
  if text.isEmpty then []
  else
    trimL (replGo ws2M 0
      ((phraseMap ++ wordMap).foldl
        (fun acc p => replBGo (wordM p.1 p.2) none 0 acc) text))

/-- An element of one of the anchored title/description template regexes:
a case-insensitive literal, a lazy capture `(.+?)`, a greedy capture
`(.+)`, or an optional alternation group `(?:w1|w2)?`. -/
inductive RElem where
  | lit (s : List Char)
  | capLazy
  | capGreedy
  | opt (alts : List (List Char))
deriving DecidableEq

mutual

/-- Anchored match (`^...$`) of a template against the text, returning the
captures in order; lazy captures backtrack shortest-first, greedy captures
longest-first, optional groups try their alternatives then the empty
match, and captures never contain line terminators (`.`). -/
def reMatch : List RElem → List Char → Option (List (List Char))
  | [], l => if l.isEmpty then some [] else none
  | .lit s :: ps, l => if matchCI s l then reMatch ps (l.drop s.length) else none
  | .opt alts :: ps, l =>
    match alts.findSome? (fun a =>
        if matchCI a l then reMatch ps (l.drop a.length) else none) with
    | some caps => some caps
    | none => reMatch ps l
  | .capLazy :: ps, l => (capLazyGo ps l).map (fun p => p.1 :: p.2)
  | .capGreedy :: ps, l => (capGrGo ps l).map (fun p => p.1 :: p.2)
termination_by ps l => (ps.length, l.length)

/-- Lazy `(.+?)`: capture lengths tried in increasing order. -/
def capLazyGo : List RElem → List Char → Option (List Char × List (List Char))
  | _, [] => none
  | ps, c :: cs =>
    if lineTerm c then none
    else
      match reMatch ps cs with
      | some caps => some ([c], caps)
      | none => (capLazyGo ps cs).map (fun p => (c :: p.1, p.2))
termination_by ps l => (ps.length, l.length + 1)

/-- Greedy `(.+)`: capture lengths tried in decreasing order. -/
def capGrGo : List RElem → List Char → Option (List Char × List (List Char))
  | _, [] => none
  | ps, c :: cs =>
    if lineTerm c then none
    else
      match (capGrGo ps cs).map (fun p => (c :: p.1, p.2)) with
      | some r => some r
      | none => (reMatch ps cs).map (fun caps => ([c], caps))
termination_by ps l => (ps.length, l.length + 1)

end

/-- Build the replacement string from literal pieces and `$n` references. -/
def applyRep : List (List Char ⊕ Nat) → List (List Char) → List Char
  | [], _ => []
  | .inl s :: rest, caps => s ++ applyRep rest caps
  | .inr i :: rest, caps => caps.getD (i - 1) [] ++ applyRep rest caps

/-- `titleTemplates` of `main`, in source order. -/
def titleTemplates : List (List RElem × List (List Char ⊕ Nat)) :=
  [ ([.lit (toL "Add a "), .capGreedy], [.inl (toL "添加 "), .inr 1]),
    ([.lit (toL "Add an "), .capGreedy], [.inl (toL "添加 "), .inr 1]),
    ([.lit (toL "Add "), .capGreedy], [.inl (toL "添加 "), .inr 1]),
    ([.lit (toL "Create a "), .capGreedy], [.inl (toL "创建 "), .inr 1]),
    ([.lit (toL "Create "), .capGreedy], [.inl (toL "创建 "), .inr 1]),
    ([.lit (toL "Display a "), .capGreedy], [.inl (toL "显示 "), .inr 1]),
    ([.lit (toL "Display "), .capGreedy], [.inl (toL "显示 "), .inr 1]),
    ([.lit (toL "Style "), .capGreedy], [.inl (toL "样式化 "), .inr 1]),
    ([.lit (toL "Change "), .capGreedy], [.inl (toL "切换 "), .inr 1]),
    ([.lit (toL "Animate "), .capGreedy], [.inl (toL "动画 "), .inr 1]),
    ([.lit (toL "Fly to "), .capGreedy], [.inl (toL "飞行到 "), .inr 1]),
    ([.lit (toL "Sync movement of "), .capGreedy],
      [.inl (toL "同步 "), .inr 1, .inl (toL " 移动")]) ]

/-- `descriptionTemplates` of `main`, in source order. -/
def descriptionTemplates : List (List RElem × List (List Char ⊕ Nat)) :=
  [ ([.lit (toL "Use a custom style layer with "), .capLazy, .lit (toL " to add "),
      .capLazy, .lit (toL " to "), .opt [toL "the ", toL "a "], .capLazy, .lit (toL ".")],
      [.inl (toL "使用自定义样式图层，通过 "), .inr 1, .inl (toL " 将 "), .inr 2,
       .inl (toL " 添加到 "), .inr 3, .inl (toL "。")]),
    ([.lit (toL "Use a custom style layer with "), .capLazy, .lit (toL " to add "),
      .capLazy, .lit (toL ".")],
      [.inl (toL "使用自定义样式图层，通过 "), .inr 1, .inl (toL " 添加 "), .inr 2,
       .inl (toL "。")]),
    ([.lit (toL "Add "), .capLazy, .lit (toL " to the map.")],
      [.inl (toL "将 "), .inr 1, .inl (toL " 添加到地图。")]),
    ([.lit (toL "Add "), .capLazy, .lit (toL " to a globe.")],
      [.inl (toL "将 "), .inr 1, .inl (toL " 添加到地球。")]),
    ([.lit (toL "Add "), .capLazy, .lit (toL " to the globe.")],
      [.inl (toL "将 "), .inr 1, .inl (toL " 添加到地球。")]),
    ([.lit (toL "Add "), .capLazy, .lit (toL " to a map.")],
      [.inl (toL "将 "), .inr 1, .inl (toL " 添加到地图。")]),
    ([.lit (toL "Display "), .capLazy, .lit (toL " on the map.")],
      [.inl (toL "在地图上显示 "), .inr 1, .inl (toL "。")]),
    ([.lit (toL "Show "), .capLazy, .lit (toL " in "), .opt [toL "an ", toL "a "],
      .capLazy, .lit (toL ".")],
      [.inl (toL "在 "), .inr 2, .inl (toL " 中显示 "), .inr 1, .inl (toL "。")]),
    ([.lit (toL "Initialize a map in an HTML element with MapLibre GL JS.")],
      [.inl (toL "在 HTML 元素中使用 MapLibre GL JS 初始化地图。")]),
    ([.lit (toL "Go beyond hillshade and show elevation in actual 3D.")],
      [.inl (toL "不止于山体阴影，显示真实 3D 高程。")]) ]

/-- First matching template applied, if any. -/
def applyTemplates (tpls : List (List RElem × List (List Char ⊕ Nat)))
    (text : List Char) : Option (List Char) :=
  tpls.findSome? (fun t => (reMatch t.1 text).map (applyRep t.2))

/-- `translateTitle(title)`. -/
def translateTitle (title : List Char) : List Char :=
  if title.isEmpty then []
  else
    match applyTemplates titleTemplates title with
    | some replaced => translateText replaced
    | none => translateText title

/-- `translateDescription(description)`. -/
def translateDescription (description : List Char) : List Char :=
  if description.isEmpty then []
  else
    match applyTemplates descriptionTemplates description with
    | some replaced => translateText replaced
    | none => translateText description

/-! ### `isMostlyChinese` -/

/-- One element of the brand-token alternation: a case-insensitive literal
character, or the `.` wildcard (the source writes `three\\.js` etc. inside
a regex literal, i.e. a literal backslash followed by any character). -/
inductive CPat where
  | lit (c : Char)
  | anyc
deriving DecidableEq

def cpatMatch : List CPat → List Char → Option Nat
  | [], _ => some 0
  | _ :: _, [] => none
  | .lit p :: ps, c :: cs =>
    if lowC p == lowC c then (cpatMatch ps cs).map (fun n => n + 1) else none
  | .anyc :: ps, c :: cs =>
    if lineTerm c then none else (cpatMatch ps cs).map (fun n => n + 1)

def litp (s : String) : List CPat := s.toList.map CPat.lit

/-- `\\.` inside the source's regex literal: a literal backslash, then any
character. -/
def escDot : List CPat := [CPat.lit '\\', CPat.anyc]

/-- The brand/technical-token alternation of `isMostlyChinese`, in source
order. -/
def brandPats : List (List CPat) :=
  [ litp "MapLibre", litp "WebGL", litp "GL", litp "3D", litp "PMTiles",
    litp "GeoJSON", litp "HTML", litp "CSS", litp "JS", litp "JSON", litp "URL",
    litp "API", litp "Nominatim",
    litp "three" ++ escDot ++ litp "js",
    litp "babylon" ++ escDot ++ litp "js",
    litp "deck" ++ escDot ++ litp "gl",
    litp "MapTiler" ]

def brandM (l : List Char) : Option (List Char × Nat) :=
  (brandPats.findSome? (fun p => cpatMatch p l)).map (fun n => ([], n))

/-- Matcher for `\s+` (replaced by a single space). -/
def wsRunM (l : List Char) : Option (List Char × Nat) :=
  match l with
  | c :: cs => if wsJS c then some ([' '], 1 + (cs.takeWhile wsJS).length) else none
  | [] => none

def hasChinese (l : List Char) : Bool :=
  l.any (fun c => 0x4e00 ≤ c.toNat && c.toNat ≤ 0x9fff)

/-- `[A-Za-z]{3,}`: three consecutive ASCII letters somewhere. -/
def hasRun3 : List Char → Bool
  | a :: b :: c :: rest =>
    (asciiLetter a && asciiLetter b && asciiLetter c) || hasRun3 (b :: c :: rest)
  | _ => false

/-- `isMostlyChinese(text)` on a present string (the `!text` guard also
rejects the empty string). -/
def isMostlyChinese (text : List Char) : Bool :=
  if text.isEmpty then false
  else
    hasChinese (trimL (replGo wsRunM 0 (replGo brandM 0 text))) &&
    !hasRun3 (trimL (replGo wsRunM 0 (replGo brandM 0 text)))

/-- `isMostlyChinese(existing?.field)`: an absent field is `undefined`,
which the `!text` guard rejects. -/
def isMostlyChineseOpt : Option (List Char) → Bool
  | none => false
  | some t => isMostlyChinese t

/-- One field of the merge policy (sync-examples.mjs lines 480-485):
keep the prior value when the heuristic accepts it, else the fresh
regenerated value. -/
def pickCn (priorVal : Option (List Char)) (fresh : List Char) : List Char :=
  if isMostlyChineseOpt priorVal then priorVal.getD [] else fresh

/-- The prior run's translated fields for one slug (each possibly absent). -/
structure CnPrior where
  titleCn : Option (List Char)
  descriptionCn : Option (List Char)
deriving DecidableEq

/-- The translated fields produced for one entry given its title,
description, and the prior run's entry (if any). -/
def mergeCn (title description : List Char) (existing : Option CnPrior) :
    List Char × List Char :=
  (pickCn (existing.bind (fun e => e.titleCn)) (translateTitle title),
   pickCn (existing.bind (fun e => e.descriptionCn)) (translateDescription description))

/-! ## Authoritative slug list (Catalog Synchronizer, step 3)

`main` of `sync-examples.mjs` (lines 197-214): scan all `href="..."`
attributes, keep those matching `/^[a-z0-9-]+\/$/i` — note the `i` flag,
which also accepts upper-case letters — strip the trailing slash, and
collect first occurrences. -/

/-- Matcher for `href="([^"]+)"` (flag `g`, case-sensitive). -/
def hrefM (l : List Char) : Option (List Char × Nat) :=
  if matchCS (toL "href=\"") l then
    match quoteCut (l.drop 6) with
    | some (cap, k) => if cap.isEmpty then none else some (cap, 6 + k)
    | none => none
  else none

def extractHrefs (html : List Char) : List (List Char) := scanGo hrefM 0 html

/-- A character matched by `[a-z0-9-]` under the `i` flag. -/
def slugChar (c : Char) : Bool :=
  ('a' ≤ c && c ≤ 'z') || ('A' ≤ c && c ≤ 'Z') || ('0' ≤ c && c ≤ '9') || c == '-'

/-- The test `/^[a-z0-9-]+\/$/i.test(href)` as the code performs it
(case-insensitive). -/
def isSlugHref (l : List Char) : Bool :=
  match l.reverse with
  | '/' :: body => !body.isEmpty && body.all slugChar
  | _ => false

/-- Modelled from the spec: the strictly lowercase slug-shaped pattern that
§4.5 step 3 describes ("lowercase alphanumerics and hyphens followed by a
trailing slash").  This follows the spec's words, for comparison with the
code's case-insensitive `isSlugHref`. -/
def specLowerSlugHref (l : List Char) : Bool :=
  match l.reverse with
  | '/' :: body =>
    !body.isEmpty &&
    body.all (fun c => ('a' ≤ c && c ≤ 'z') || ('0' ≤ c && c ≤ '9') || c == '-')
  | _ => false

/-- `href.replace(/\/$/, "")`. -/
def stripSlash (l : List Char) : List Char :=
  match l.reverse with
  | '/' :: body => body.reverse
  | _ => l

/-- One iteration of the slug-collection loop (the `seen` set always holds
exactly the members of the accumulator). -/
def addSlug (acc : List (List Char)) (href : List Char) : List (List Char) :=
  if isSlugHref href then
    let slug := stripSlash href
    if ¬slug.isEmpty ∧ slug ∉ acc then acc ++ [slug] else acc
  else acc

/-- The deduplicated ordered slug list built by `main`. -/
def slugListOf (html : List Char) : List (List Char) :=
  (extractHrefs html).foldl addSlug []

/-- Canonical first-occurrence deduplication, for characterizing the
loop's output. -/
def keepFirsts {α : Type} [DecidableEq α] : List α → List α
  | [] => []
  | a :: rest => a :: keepFirsts (rest.filter (fun x => decide (x ≠ a)))
termination_by l => l.length
decreasing_by
  simp only [List.length_cons]
  exact Nat.lt_succ_of_le (List.length_filter_le _ _)

/-! ## Supporting lemmas -/

theorem getFile_setFile (fs : FileSys) (p c : String) :
    getFile (setFile fs p c) p = some c := by
  simp [getFile, setFile]

/-- `find?` returns the element at the first index whose test succeeds. -/
theorem find?_first {α : Type} (p : α → Bool) :
    ∀ (l : List α) (i : Nat) (hi : i < l.length),
      (∀ j (hj : j < i), p (l.get ⟨j, Nat.lt_trans hj hi⟩) = false) →
      p (l.get ⟨i, hi⟩) = true →
      l.find? p = some (l.get ⟨i, hi⟩) := by
  intro l
  induction l with
  | nil => intro i hi; simp at hi
  | cons a t ih =>
    intro i hi hbefore hhit
    cases i with
    | zero => exact List.find?_cons_of_pos _ hhit
    | succ i' =>
      have ha : p a = false := hbefore 0 (Nat.succ_pos _)
      rw [List.find?_cons_of_neg _ (by simp [ha])]
      exact ih i' (Nat.lt_of_succ_lt_succ hi)
        (fun j hj => hbefore (j + 1) (Nat.succ_lt_succ hj)) hhit

theorem keepFirsts_subset {α : Type} [DecidableEq α] :
    ∀ (n : Nat) (l : List α), l.length ≤ n → ∀ x, x ∈ keepFirsts l → x ∈ l := by
  intro n
  induction n with
  | zero =>
    intro l hl x hx
    match l with
    | [] => simp [keepFirsts] at hx
  | succ n ih =>
    intro l hl x hx
    match l with
    | [] => simp [keepFirsts] at hx
    | a :: rest =>
      rw [keepFirsts] at hx
      rcases List.mem_cons.mp hx with h | h
      · simp [h]
      · have hlen : (rest.filter (fun x => decide (x ≠ a))).length ≤ n := by
          have := List.length_filter_le (fun x => decide (x ≠ a)) rest
          simp only [List.length_cons] at hl
          omega
        exact List.mem_cons_of_mem _ (List.mem_of_mem_filter (ih _ hlen x h))

theorem keepFirsts_nodup {α : Type} [DecidableEq α] :
    ∀ (n : Nat) (l : List α), l.length ≤ n → (keepFirsts l).Nodup := by
  intro n
  induction n with
  | zero =>
    intro l hl
    match l with
    | [] => simp [keepFirsts]
  | succ n ih =>
    intro l hl
    match l with
    | [] => simp [keepFirsts]
    | a :: rest =>
      rw [keepFirsts]
      have hlen : (rest.filter (fun x => decide (x ≠ a))).length ≤ n := by
        have := List.length_filter_le (fun x => decide (x ≠ a)) rest
        simp only [List.length_cons] at hl
        omega
      refine List.nodup_cons.mpr ⟨?_, ih _ hlen⟩
      intro hmem
      have := List.mem_filter.mp (keepFirsts_subset n _ hlen a hmem)
      simp at this

/-- The per-href slug-collection fold, characterized as first-occurrence
deduplication of the filtered candidate list. -/
theorem addSlug_foldl :
    ∀ (hrefs : List (List Char)) (acc : List (List Char)), acc.Nodup →
      hrefs.foldl addSlug acc =
        acc ++ keepFirsts
          ((((hrefs.filter isSlugHref).map stripSlash).filter
              (fun s => !s.isEmpty)).filter (fun s => decide (s ∉ acc))) := by
  intro hrefs
  induction hrefs with
  | nil => intro acc _; simp [keepFirsts]
  | cons h t ih =>
    intro acc hacc
    rw [List.foldl_cons]
    cases hs : isSlugHref h with
    | false =>
      have : addSlug acc h = acc := by simp [addSlug, hs]
      rw [this, ih acc hacc, List.filter_cons]
      simp [hs]
    | true =>
      cases he : (stripSlash h).isEmpty with
      | true =>
        have : addSlug acc h = acc := by
          simp only [addSlug, hs, if_true]
          rw [if_neg]
          simp [he]
        rw [this, ih acc hacc, List.filter_cons]
        simp [hs, List.filter_cons, he]
      | false =>
        by_cases hmem : stripSlash h ∈ acc
        · have : addSlug acc h = acc := by
            simp only [addSlug, hs, if_true]
            rw [if_neg]
            simp [hmem]
          rw [this, ih acc hacc, List.filter_cons]
          simp [hs, List.filter_cons, he, List.filter_cons, hmem]
        · have hstep : addSlug acc h = acc ++ [stripSlash h] := by
            simp only [addSlug, hs, if_true]
            rw [if_pos]
            exact ⟨by simp [he], hmem⟩
          have hacc' : (acc ++ [stripSlash h]).Nodup :=
            List.Nodup.append hacc (List.nodup_singleton _)
              ((List.disjoint_singleton).mpr hmem)
          have hcands :
              ((((h :: t).filter isSlugHref).map stripSlash).filter
                  (fun s => !s.isEmpty)).filter (fun s => decide (s ∉ acc)) =
                stripSlash h ::
                  ((((t.filter isSlugHref).map stripSlash).filter
                    (fun s => !s.isEmpty)).filter (fun s => decide (s ∉ acc))) := by
            rw [List.filter_cons]
            simp [hs, List.filter_cons, he, hmem]
          have hfilters :
              ((((t.filter isSlugHref).map stripSlash).filter
                  (fun s => !s.isEmpty)).filter
                (fun s => decide (s ∉ acc ++ [stripSlash h]))) =
              (((((t.filter isSlugHref).map stripSlash).filter
                  (fun s => !s.isEmpty)).filter
                (fun s => decide (s ∉ acc))).filter
                (fun x => decide (x ≠ stripSlash h))) := by
            conv_lhs => rw [List.filter_filter]
            conv_rhs => rw [List.filter_filter, List.filter_filter]
            apply List.filter_congr
            intro x _
            by_cases h1 : x = stripSlash h
            · subst h1; simp [List.mem_append]
            · by_cases h2 : x ∈ acc
              · simp [h1, h2, List.mem_append]
              · simp [h1, h2, List.mem_append]
          rw [hstep, ih _ hacc', hfilters, hcands, keepFirsts,
            List.append_assoc, List.singleton_append]

/-! ### Lemmas about snippet selection -/

theorem firstMax_ne_none (b : CodeBlock) (rest : List CodeBlock) :
    firstMax (b :: rest) ≠ none := by
  rw [firstMax]
  cases firstMax rest with
  | none => simp
  | some m =>
    by_cases h : blockScore b < blockScore m <;> simp [h]

/-- The head of the stable descending sort is the earliest maximal block. -/
theorem sortDesc_head : ∀ l : List CodeBlock, (sortDesc l).head? = firstMax l := by
  intro l
  induction l with
  | nil => rfl
  | cons b rest ih =>
    rw [sortDesc, firstMax]
    cases h : sortDesc rest with
    | nil =>
      have hfm : firstMax rest = none := by rw [← ih, h]; rfl
      rw [hfm, insDesc]
      rfl
    | cons a t =>
      have hfm : firstMax rest = some a := by rw [← ih, h]; rfl
      rw [hfm, insDesc]
      by_cases hle : blockScore a ≤ blockScore b
      · rw [if_pos hle]
        simp [Nat.not_lt.mpr hle]
      · rw [if_neg hle]
        simp [Nat.not_le.mp hle]

/-- `firstMax` returns the block at the first index of maximal score. -/
theorem firstMax_spec : ∀ (l : List CodeBlock) (m : CodeBlock), firstMax l = some m →
    ∃ (i : Nat) (hi : i < l.length),
      l.get ⟨i, hi⟩ = m ∧
      (∀ j (hj : j < l.length), blockScore (l.get ⟨j, hj⟩) ≤ blockScore m) ∧
      (∀ j (hj : j < i), blockScore (l.get ⟨j, Nat.lt_trans hj hi⟩) < blockScore m) := by
  intro l
  induction l with
  | nil => intro m hm; simp [firstMax] at hm
  | cons b rest ih =>
    intro m hm
    cases hr : firstMax rest with
    | none =>
      simp only [firstMax, hr] at hm
      cases hm
      cases rest with
      | nil =>
        refine ⟨0, by simp, rfl, ?_, ?_⟩
        · intro j hj
          simp at hj
          subst hj
          exact Nat.le_refl _
        · intro j hj; omega
      | cons x xs => exact absurd hr (firstMax_ne_none x xs)
    | some mr =>
      simp only [firstMax, hr] at hm
      by_cases hlt : blockScore b < blockScore mr
      · rw [if_pos hlt] at hm
        cases hm
        obtain ⟨i, hi, hget, hmax, hstrict⟩ := ih m hr
        refine ⟨i + 1, Nat.succ_lt_succ hi, hget, ?_, ?_⟩
        · intro j hj
          cases j with
          | zero => exact Nat.le_of_lt (hget ▸ hlt)
          | succ j' => exact hmax j' (Nat.lt_of_succ_lt_succ hj)
        · intro j hj
          cases j with
          | zero => exact hget ▸ hlt
          | succ j' => exact hstrict j' (Nat.lt_of_succ_lt_succ hj)
      · rw [if_neg hlt] at hm
        cases hm
        obtain ⟨i, hi, hget, hmax, _⟩ := ih mr hr
        refine ⟨0, Nat.succ_pos _, rfl, ?_, ?_⟩
        · intro j hj
          cases j with
          | zero => exact Nat.le_refl _
          | succ j' =>
            exact Nat.le_trans (hmax j' (Nat.lt_of_succ_lt_succ hj)) (Nat.not_lt.mp hlt)
        · intro j hj; omega

theorem mem_insDesc (x b : CodeBlock) : ∀ l : List CodeBlock,
    x ∈ insDesc b l → x = b ∨ x ∈ l := by
  intro l
  induction l with
  | nil => intro h; simp [insDesc] at h; simp [h]
  | cons a t ih =>
    intro h
    rw [insDesc] at h
    by_cases hle : blockScore a ≤ blockScore b
    · rw [if_pos hle] at h
      rcases List.mem_cons.mp h with h | h
      · exact Or.inl h
      · exact Or.inr h
    · rw [if_neg hle] at h
      rcases List.mem_cons.mp h with h | h
      · exact Or.inr (by simp [h])
      · rcases ih h with h | h
        · exact Or.inl h
        · exact Or.inr (List.mem_cons_of_mem _ h)

theorem mem_sortDesc (x : CodeBlock) : ∀ l : List CodeBlock,
    x ∈ sortDesc l → x ∈ l := by
  intro l
  induction l with
  | nil => intro h; simp [sortDesc] at h
  | cons b rest ih =>
    intro h
    rw [sortDesc] at h
    rcases mem_insDesc x b _ h with h | h
    · simp [h]
    · exact List.mem_cons_of_mem _ (ih h)

/-- A selected snippet is the code of one of the blocks. -/
theorem pickSnippet_mem (blocks : List CodeBlock) (s : List Char)
    (h : pickSnippet blocks = some s) : ∃ b ∈ blocks, b.code = s := by
  match blocks with
  | [] => simp [pickSnippet] at h
  | x :: xs =>
    rw [pickSnippet] at h
    cases hh : (sortDesc (x :: xs)).head? with
    | none => rw [hh] at h; simp at h
    | some m =>
      rw [hh] at h
      simp at h
      refine ⟨m, ?_, h⟩
      have hmem : m ∈ sortDesc (x :: xs) := by
        cases hsd : sortDesc (x :: xs) with
        | nil => rw [hsd] at hh; simp at hh
        | cons y ys =>
          rw [hsd] at hh
          simp at hh
          simp [hh]
      exact mem_sortDesc m _ hmem

/-- Every extracted block has non-empty code: empty blocks are discarded. -/
theorem extract_nonempty (html : List Char) (b : CodeBlock)
    (h : b ∈ extractCodeBlocks html) : b.code ≠ [] := by
  rw [extractCodeBlocks] at h
  rcases List.mem_filterMap.mp h with ⟨pr, _, hf⟩
  by_cases he : (trimL (toPlainCode pr.2)).isEmpty = true
  · simp [he] at hf
  · simp [he] at hf
    rw [← hf]
    simp only [List.isEmpty_iff] at he
    exact he

/-- A fulfilled task's snippet is non-empty. -/
theorem taskOutcome_nonempty (env : String → Option String) (t : SnipTask)
    (snip : List Char) (h : taskOutcome env t = some snip) : snip ≠ [] := by
  rw [taskOutcome] at h
  cases henv : env t.url with
  | none => rw [henv] at h; simp at h
  | some html =>
    rw [henv] at h
    obtain ⟨b, hb, hcode⟩ := pickSnippet_mem _ _ h
    exact hcode ▸ extract_nonempty (toL html) b hb

/-! ### Counting lemmas for the run loop -/

theorem phase1_len (l : List ExampleRec) : ∀ (s : Nat) (ts : List SnipTask),
    (l.foldl phase1Step (s, ts)).1 + (l.foldl phase1Step (s, ts)).2.length
      = s + ts.length + l.length := by
  induction l with
  | nil => intro s ts; simp
  | cons e t ih =>
    intro s ts
    rw [List.foldl_cons]
    cases he : taskOf e with
    | none =>
      have : phase1Step (s, ts) e = (s + 1, ts) := by simp [phase1Step, he]
      rw [this, ih]
      simp; omega
    | some tk =>
      have : phase1Step (s, ts) e = (s, ts ++ [tk]) := by simp [phase1Step, he]
      rw [this, ih]
      simp; omega

theorem phase2_len (fileExists : String → Bool) (l : List SnipTask) :
    ∀ (s : Nat) (ts : List SnipTask),
      (l.foldl (phase2Step fileExists) (s, ts)).1 +
        (l.foldl (phase2Step fileExists) (s, ts)).2.length
      = s + ts.length + l.length := by
  induction l with
  | nil => intro s ts; simp
  | cons t rest ih =>
    intro s ts
    rw [List.foldl_cons]
    by_cases he : fileExists t.outPath = true
    · have : phase2Step fileExists (s, ts) t = (s + 1, ts) := by simp [phase2Step, he]
      rw [this, ih]
      simp; omega
    · have : phase2Step fileExists (s, ts) t = (s, ts ++ [t]) := by simp [phase2Step, he]
      rw [this, ih]
      simp; omega

theorem runBatch_len (env : String → Option String) (b : List SnipTask) :
    ∀ (c f : Nat) (w : List (String × List Char)),
      (b.foldl (batchStep env) ((c, f), w)).1.1 +
        (b.foldl (batchStep env) ((c, f), w)).1.2 = c + f + b.length := by
  induction b with
  | nil => intro c f w; simp
  | cons t rest ih =>
    intro c f w
    rw [List.foldl_cons]
    cases ho : taskOutcome env t with
    | some snip =>
      have : batchStep env ((c, f), w) t = ((c + 1, f), w ++ [(t.outPath, snip)]) := by
        simp [batchStep, ho]
      rw [this, ih]
      simp; omega
    | none =>
      have : batchStep env ((c, f), w) t = ((c, f + 1), w) := by
        simp [batchStep, ho]
      rw [this, ih]
      simp; omega

theorem batchesF_join : ∀ (fuel : Nat) (l : List SnipTask), l.length ≤ fuel →
    (batchesF fuel l).flatten = l := by
  intro fuel
  induction fuel with
  | zero =>
    intro l hl
    match l with
    | [] => rfl
  | succ fuel ih =>
    intro l hl
    match l with
    | [] => rfl
    | t :: ts =>
      rw [batchesF, List.flatten_cons, ih ((t :: ts).drop 6) (by simp at hl ⊢; omega)]
      exact List.take_append_drop 6 (t :: ts)

theorem runFold_counts (env : String → Option String) :
    ∀ (bs : List (List SnipTask)) (c f : Nat) (w : List (String × List Char)),
      (bs.foldl (sumStep env) ((c, f), w)).1.1 +
        (bs.foldl (sumStep env) ((c, f), w)).1.2
      = c + f + (bs.map List.length).sum := by
  intro bs
  induction bs with
  | nil => intro c f w; simp
  | cons b t ih =>
    intro c f w
    rw [List.foldl_cons]
    have hb : (runBatch env b).1.1 + (runBatch env b).1.2 = b.length := by
      have := runBatch_len env b 0 0 []
      simpa [runBatch] using this
    have : sumStep env ((c, f), w) b =
        ((c + (runBatch env b).1.1, f + (runBatch env b).1.2),
          w ++ (runBatch env b).2) := rfl
    rw [this, ih]
    simp
    omega

theorem runBatch_written (env : String → Option String) :
    ∀ (b : List SnipTask) (c f : Nat) (w : List (String × List Char))
      (pr : String × List Char),
      pr ∈ (b.foldl (batchStep env) ((c, f), w)).2 →
      pr ∈ w ∨ ∃ t, taskOutcome env t = some pr.2 := by
  intro b
  induction b with
  | nil => intro c f w pr h; exact Or.inl h
  | cons t rest ih =>
    intro c f w pr h
    rw [List.foldl_cons] at h
    cases ho : taskOutcome env t with
    | some snip =>
      have hstep : batchStep env ((c, f), w) t
          = ((c + 1, f), w ++ [(t.outPath, snip)]) := by simp [batchStep, ho]
      rw [hstep] at h
      rcases ih _ _ _ pr h with hw | hex
      · rcases List.mem_append.mp hw with hw | hw
        · exact Or.inl hw
        · right
          refine ⟨t, ?_⟩
          simp at hw
          rw [ho, hw]
      · exact Or.inr hex
    | none =>
      have hstep : batchStep env ((c, f), w) t = ((c, f + 1), w) := by
        simp [batchStep, ho]
      rw [hstep] at h
      exact ih _ _ _ pr h

theorem runFold_written (env : String → Option String) :
    ∀ (bs : List (List SnipTask)) (c f : Nat) (w : List (String × List Char))
      (pr : String × List Char),
      pr ∈ (bs.foldl (sumStep env) ((c, f), w)).2 →
      pr ∈ w ∨ ∃ t, taskOutcome env t = some pr.2 := by
  intro bs
  induction bs with
  | nil => intro c f w pr h; exact Or.inl h
  | cons b t ih =>
    intro c f w pr h
    rw [List.foldl_cons] at h
    have hstep : sumStep env ((c, f), w) b =
        ((c + (runBatch env b).1.1, f + (runBatch env b).1.2),
          w ++ (runBatch env b).2) := rfl
    rw [hstep] at h
    rcases ih _ _ _ pr h with hw | hex
    · rcases List.mem_append.mp hw with hw | hw
      · exact Or.inl hw
      · exact runBatch_written env b 0 0 [] pr hw |>.imp_left (by simp)
    · exact Or.inr hex

theorem fetchGo_allFail (url : String) (oracle : Nat → AttemptResult) :
    ∀ (r attempt : Nat) (le : Option String),
      (∀ i, attempt ≤ i → i < attempt + r → isSuccess (oracle i) = false) →
      fetchGo url oracle attempt r le =
        (Except.error
          (if r = 0 then le else some (errMsg url (oracle (attempt + r - 1)))),
         attempt + r) := by
  intro r
  induction r with
  | zero => intro attempt le _; simp [fetchGo]
  | succ r ih =>
    intro attempt le h
    have hfail : isSuccess (oracle attempt) = false :=
      h attempt (Nat.le_refl _) (by omega)
    have hrest : ∀ i, attempt + 1 ≤ i → i < attempt + 1 + r →
        isSuccess (oracle i) = false := fun i h1 h2 => h i (by omega) (by omega)
    cases ho : oracle attempt with
    | success body => rw [ho] at hfail; simp [isSuccess] at hfail
    | httpError s =>
      have step : fetchGo url oracle attempt (r + 1) le =
          fetchGo url oracle (attempt + 1) r (some (errMsg url (.httpError s))) := by
        simp [fetchGo, ho]
      rw [step, ih (attempt + 1) _ hrest]
      cases r with
      | zero => simp [show attempt + 1 - 1 = attempt by omega, ← ho]
      | succ r' =>
        have h1 : attempt + 1 + (r' + 1) - 1 = attempt + (r' + 1 + 1) - 1 := by omega
        have h2 : attempt + 1 + (r' + 1) = attempt + (r' + 1 + 1) := by omega
        simp [h1, h2]
    | netError m =>
      have step : fetchGo url oracle attempt (r + 1) le =
          fetchGo url oracle (attempt + 1) r (some (errMsg url (.netError m))) := by
        simp [fetchGo, ho]
      rw [step, ih (attempt + 1) _ hrest]
      cases r with
      | zero => simp [show attempt + 1 - 1 = attempt by omega, ← ho]
      | succ r' =>
        have h1 : attempt + 1 + (r' + 1) - 1 = attempt + (r' + 1 + 1) - 1 := by omega
        have h2 : attempt + 1 + (r' + 1) = attempt + (r' + 1 + 1) := by omega
        simp [h1, h2]

/-! ## Claim theorems: C1, C2, C4, C10 -/

/-- C1 (counterexample): the claim says a failure during the write never
leaves a partially written file as the canonical output and leaves the
prior canonical output unchanged.  The code writes the dataset with a
single direct `fs.writeFile` on the canonical path: a write of `"new"`
over a prior `"old"` interrupted after one character leaves the canonical
output holding the partial content `"n"`, which is neither the prior
content nor the full new content. -/
theorem claim_C1_counterexample :
    getFile (persistOutput [("out.json", "old")] "out.json" "new"
        (WriteEnd.interrupted 1)) "out.json" = some "n" ∧
    getFile [("out.json", "old")] "out.json" = some "old" ∧
    ("n" : String) ≠ "old" ∧ ("n" : String) ≠ "new" := by
  refine ⟨by decide, by decide, by decide, by decide⟩

/-- C1 (amended): the Catalog Synchronizer persists its output with a
single direct write to the canonical output path (no write-then-replace):
a completed write stores the full serialized dataset, while an interrupted
write leaves a prefix of the new content as the canonical output — unlike
the spec-modelled atomic persist, which leaves the file system unchanged
on an interrupted write. -/
theorem claim_C1_amended :
    (∀ (fs : FileSys) (p json : String),
      getFile (persistOutput fs p json WriteEnd.complete) p = some json) ∧
    (∀ (fs : FileSys) (p json : String) (k : Nat),
      getFile (persistOutput fs p json (WriteEnd.interrupted k)) p
        = some (strTake k json)) ∧
    (∀ (fs : FileSys) (p json : String) (k : Nat),
      specAtomicPersist fs p json (WriteEnd.interrupted k) = fs) := by
  refine ⟨?_, ?_, ?_⟩
  · intro fs p json
    exact getFile_setFile fs p json
  · intro fs p json k
    exact getFile_setFile fs p (strTake k json)
  · intro fs p json k
    rfl

/-- C2: `classifyTag` and `classifyLevel` test their keyword rules in the
fixed source order on the lower-cased concatenation of title and
description; the first matching rule wins; with no matching rule the
defaults `Basics` and `Beginner` apply; and any text containing both
`terrain` and `animate` classifies as `3D & Terrain` (the terrain rule
precedes the animation rule). -/
theorem claim_C2 :
    (∀ title description : List Char,
      ((∀ r ∈ tagRules, anyPat r.1 (textOf title description) = false) →
        classifyTag title description = toL "Basics") ∧
      ((∀ r ∈ levelRules, anyPat r.1 (textOf title description) = false) →
        classifyLevel title description = toL "Beginner")) ∧
    (∀ (title description : List Char) (i : Nat) (hi : i < tagRules.length),
      (∀ j (hj : j < i),
        anyPat (tagRules.get ⟨j, Nat.lt_trans hj hi⟩).1 (textOf title description) = false) →
      anyPat (tagRules.get ⟨i, hi⟩).1 (textOf title description) = true →
      classifyTag title description = (tagRules.get ⟨i, hi⟩).2) ∧
    (∀ (title description : List Char) (i : Nat) (hi : i < levelRules.length),
      (∀ j (hj : j < i),
        anyPat (levelRules.get ⟨j, Nat.lt_trans hj hi⟩).1 (textOf title description) = false) →
      anyPat (levelRules.get ⟨i, hi⟩).1 (textOf title description) = true →
      classifyLevel title description = (levelRules.get ⟨i, hi⟩).2) ∧
    (∀ title description : List Char,
      hasSub (toL "terrain") (textOf title description) = true →
      hasSub (toL "animate") (textOf title description) = true →
      classifyTag title description = toL "3D & Terrain") := by
  refine ⟨?_, ?_, ?_, ?_⟩
  · intro title description
    constructor
    · intro h
      have : tagRules.find? (fun r => anyPat r.1 (textOf title description)) = none := by
        rw [List.find?_eq_none]
        intro r hr
        simp [h r hr]
      simp [classifyTag, this]
    · intro h
      have : levelRules.find? (fun r => anyPat r.1 (textOf title description)) = none := by
        rw [List.find?_eq_none]
        intro r hr
        simp [h r hr]
      simp [classifyLevel, this]
  · intro title description i hi hbefore hhit
    have := find?_first (fun r => anyPat r.1 (textOf title description))
      tagRules i hi hbefore hhit
    simp [classifyTag, this]
  · intro title description i hi hbefore hhit
    have := find?_first (fun r => anyPat r.1 (textOf title description))
      levelRules i hi hbefore hhit
    simp [classifyLevel, this]
  · intro title description hterr _
    have hany : anyPat
        [toL "terrain", toL "3d", toL "extrusion", toL "globe", toL "sky", toL "fog"]
        (textOf title description) = true := by
      simp [anyPat]
      exact Or.inl hterr
    have hfind : tagRules.find? (fun r => anyPat r.1 (textOf title description)) =
        some ([toL "terrain", toL "3d", toL "extrusion", toL "globe", toL "sky", toL "fog"],
          toL "3D & Terrain") := by
      rw [show tagRules =
        ([toL "terrain", toL "3d", toL "extrusion", toL "globe", toL "sky", toL "fog"],
          toL "3D & Terrain") :: tagRules.tail from rfl]
      exact List.find?_cons_of_pos _ hany
    simp [classifyTag, hfind]

/-- Witness for C2: a text containing both keywords classifies as
`3D & Terrain`, and keyword-free texts get both defaults. -/
theorem claim_C2_witness :
    classifyTag (toL "Animate terrain") [] = toL "3D & Terrain" ∧
    classifyTag (toL "zzz") [] = toL "Basics" ∧
    classifyLevel (toL "zzz") [] = toL "Beginner" :=
  ⟨claim_C2.2.2.2 (toL "Animate terrain") [] (by decide) (by decide),
   (claim_C2.1 (toL "zzz") []).1 (by decide),
   (claim_C2.1 (toL "zzz") []).2 (by decide)⟩

/-- C4: against a target on which every attempt fails, the Resilient
Fetcher performs exactly `attempts` fetch attempts, fails, and surfaces
the error observed on the last attempt. -/
theorem claim_C4 (url : String) (oracle : Nat → AttemptResult) (attempts : Nat)
    (h : ∀ i, i < attempts → isSuccess (oracle i) = false) :
    (fetchWithRetry url oracle attempts).2 = attempts ∧
    (∃ e, (fetchWithRetry url oracle attempts).1 = Except.error e) ∧
    (0 < attempts →
      (fetchWithRetry url oracle attempts).1 =
        Except.error (some (errMsg url (oracle (attempts - 1))))) := by
  have key := fetchGo_allFail url oracle attempts 0 none
    (fun i h1 h2 => h i (by omega))
  rw [show (0 : Nat) + attempts = attempts by omega] at key
  unfold fetchWithRetry
  rw [key]
  refine ⟨rfl, ⟨_, rfl⟩, ?_⟩
  intro hpos
  simp [Nat.pos_iff_ne_zero.mp hpos]

/-- Witness for C4 at `maxAttempts = 3` against an always-failing target:
exactly 3 attempts, then failure with the last error. -/
theorem claim_C4_witness :
    (fetchWithRetry "u" (fun _ => AttemptResult.netError "boom") 3).2 = 3 ∧
    (fetchWithRetry "u" (fun _ => AttemptResult.netError "boom") 3).1 =
      Except.error (some "boom") :=
  have h := claim_C4 "u" (fun _ => AttemptResult.netError "boom") 3 (fun _ _ => rfl)
  ⟨h.1, h.2.2 (by omega)⟩

/-- C10: `decodeEntities` is a single left-to-right pass that never
re-scans replacement text: each of the five named entities is replaced
exactly once where it occurs and the scan resumes after the replacement,
so the double-encoded `"&amp;lt;"` decodes to `"&lt;"`, not `"<"`. -/
theorem claim_C10 :
    (∀ rest, decodeEntities ('&' :: 'a' :: 'm' :: 'p' :: ';' :: rest)
      = '&' :: decodeEntities rest) ∧
    (∀ rest, decodeEntities ('&' :: 'l' :: 't' :: ';' :: rest)
      = '<' :: decodeEntities rest) ∧
    (∀ rest, decodeEntities ('&' :: 'g' :: 't' :: ';' :: rest)
      = '>' :: decodeEntities rest) ∧
    (∀ rest, decodeEntities ('&' :: 'q' :: 'u' :: 'o' :: 't' :: ';' :: rest)
      = '"' :: decodeEntities rest) ∧
    (∀ rest, decodeEntities ('&' :: '#' :: '3' :: '9' :: ';' :: rest)
      = '\'' :: decodeEntities rest) ∧
    decodeEntities (toL "&amp;lt;") = toL "&lt;" ∧
    decodeEntities (toL "&amp;lt;") ≠ toL "<" := by
  refine ⟨fun rest => rfl, fun rest => rfl, fun rest => rfl, fun rest => rfl,
    fun rest => rfl, by decide, by decide⟩

/-- The filtered candidate slugs, in overview order: slug-shaped hrefs,
stripped of the trailing slash, non-empty. -/
def slugCands (html : List Char) : List (List Char) :=
  (((extractHrefs html).filter isSlugHref).map stripSlash).filter
    (fun s => !s.isEmpty)

/-- C7 (counterexample): the claim says a href containing characters
outside the lowercase pattern contributes no slug.  The code's test
carries the `i` flag, so the href `"ABC/"` — rejected by the spec's strict
lowercase pattern — does contribute the slug `"ABC"`. -/
theorem claim_C7_counterexample :
    specLowerSlugHref (toL "ABC/") = false ∧
    slugListOf (toL "<a href=\"ABC/\">x</a>") = [toL "ABC"] := by
  refine ⟨by decide, by decide⟩

/-- C7 (amended): the authoritative slug list is built only from hyperlink
targets consisting of ASCII letters (of either case — the test is
case-insensitive), digits and hyphens followed by a trailing slash, and is
deduplicated preserving first-occurrence order: it equals the canonical
first-occurrence deduplication of the filtered candidate list, and every
slug appears at most once. -/
theorem claim_C7_amended :
    (∀ html, slugListOf html = keepFirsts (slugCands html)) ∧
    (∀ html, (slugListOf html).Nodup) ∧
    isSlugHref (toL "abc-123/") = true ∧
    isSlugHref (toL "ABC/") = true ∧
    isSlugHref (toL "abc") = false ∧
    isSlugHref (toL "a_b/") = false := by
  have key : ∀ html, slugListOf html = keepFirsts (slugCands html) := by
    intro html
    rw [slugListOf, addSlug_foldl (extractHrefs html) [] (List.nodup_nil)]
    rw [List.nil_append]
    congr 1
    rw [slugCands]
    apply List.filter_eq_self.mpr
    intro s _
    simp
  refine ⟨key, ?_, by decide, by decide, by decide, by decide⟩
  intro html
  rw [key html]
  exact keepFirsts_nodup (slugCands html).length _ (Nat.le_refl _)

theorem phase1_total (examples : List ExampleRec) :
    (phase1 examples).1 + (phase1 examples).2.length = examples.length := by
  have := phase1_len examples 0 []
  simpa [phase1] using this

theorem phase2_total (fileExists : String → Bool) (tasks : List SnipTask) :
    (phase2 fileExists tasks).1 + (phase2 fileExists tasks).2.length = tasks.length := by
  have := phase2_len fileExists tasks 0 []
  simpa [phase2] using this

theorem batches_total (env : String → Option String) (pending : List SnipTask) :
    ((batches pending).foldl (sumStep env) ((0, 0), [])).1.1 +
      ((batches pending).foldl (sumStep env) ((0, 0), [])).1.2 = pending.length := by
  have hc := runFold_counts env (batches pending) 0 0 []
  have hsum : ((batches pending).map List.length).sum = pending.length := by
    conv_rhs => rw [← batchesF_join pending.length pending (Nat.le_refl _)]
    rw [List.length_flatten, batches]
  omega

/-- C8: the reported counts partition the input: for every run,
created + skipped + failed equals the number of entries of the input
examples array. -/
theorem claim_C8 (examples : List ExampleRec) (fileExists : String → Bool)
    (env : String → Option String) :
    (runSnippets examples fileExists env).1.created +
      (runSnippets examples fileExists env).1.skipped +
      (runSnippets examples fileExists env).1.failed = examples.length := by
  have h1 := phase1_total examples
  have h2 := phase2_total fileExists (phase1 examples).2
  have hc := batches_total env (phase2 fileExists (phase1 examples).2).2
  simp only [runSnippets]
  omega

/-- C6: snippet selection scores each block as its plain-code length plus
the fixed bonuses, selects the earliest highest-scoring block (stable
descending sort), and — in particular — between a 50-character plain-JS
block and a 50-character block containing `<!DOCTYPE html>` and a
`maplibregl` reference, the latter wins regardless of discovery order. -/
theorem claim_C6 :
    (∀ blocks : List CodeBlock, blocks ≠ [] →
      ∃ (i : Nat) (hi : i < blocks.length),
        pickSnippet blocks = some (blocks.get ⟨i, hi⟩).code ∧
        (∀ j (hj : j < blocks.length),
          blockScore (blocks.get ⟨j, hj⟩) ≤ blockScore (blocks.get ⟨i, hi⟩)) ∧
        (∀ j (hj : j < i),
          blockScore (blocks.get ⟨j, Nat.lt_trans hj hi⟩) <
            blockScore (blocks.get ⟨i, hi⟩))) ∧
    (∀ a b : CodeBlock,
      a.code.length = 50 → b.code.length = 50 →
      hasSubCI (toL "<!doctype html>") a.code = false →
      hasSubCI (toL "maplibregl") a.code = false →
      hasSubCI (toL "<!doctype html>") b.code = true →
      hasSubCI (toL "maplibregl") b.code = true →
      pickSnippet [a, b] = some b.code ∧ pickSnippet [b, a] = some b.code) := by
  constructor
  · intro blocks hne
    match blocks, hne with
    | x :: xs, _ =>
      cases hm : firstMax (x :: xs) with
      | none => exact absurd hm (firstMax_ne_none x xs)
      | some m =>
        obtain ⟨i, hi, hget, hmax, hstrict⟩ := firstMax_spec (x :: xs) m hm
        refine ⟨i, hi, ?_, ?_, ?_⟩
        · show (sortDesc (x :: xs)).head?.map (fun b => b.code)
            = some ((x :: xs).get ⟨i, hi⟩).code
          rw [sortDesc_head, hm, hget]
          rfl
        · intro j hj
          rw [hget]
          exact hmax j hj
        · intro j hj
          rw [hget]
          exact hstrict j hj
  · intro a b ha hb had ham hbd hbm
    have hsa : blockScore a ≤ 1550 := by
      rw [blockScore, ha, had, ham]
      simp only [Bool.false_eq_true, if_false]
      split <;> split <;> omega
    have hsb : 7050 ≤ blockScore b := by
      rw [blockScore, hb, hbd, hbm]
      simp only [if_true]
      omega
    have h1 : ¬ blockScore b ≤ blockScore a := by omega
    have h2 : blockScore a ≤ blockScore b := by omega
    constructor
    · simp [pickSnippet, sortDesc, insDesc, h1]
    · simp [pickSnippet, sortDesc, insDesc, h2]

/-- Witness for C6: with two concrete 50-character blocks, the block with
the document marker and library reference is selected in both orders. -/
theorem claim_C6_witness :
    pickSnippet
      [⟨toL "language-js", toL "var map = new Map(12345); map.setZoom(3); go(422);"⟩,
       ⟨toL "language-html", toL "<!DOCTYPE html><script>maplibregl.Map()</script>ab"⟩]
      = some (toL "<!DOCTYPE html><script>maplibregl.Map()</script>ab") ∧
    pickSnippet
      [⟨toL "language-html", toL "<!DOCTYPE html><script>maplibregl.Map()</script>ab"⟩,
       ⟨toL "language-js", toL "var map = new Map(12345); map.setZoom(3); go(422);"⟩]
      = some (toL "<!DOCTYPE html><script>maplibregl.Map()</script>ab") :=
  claim_C6.2
    ⟨toL "language-js", toL "var map = new Map(12345); map.setZoom(3); go(422);"⟩
    ⟨toL "language-html", toL "<!DOCTYPE html><script>maplibregl.Map()</script>ab"⟩
    (by decide) (by decide) (by decide) (by decide) (by decide) (by decide)

/-- C9: a snippet file written by the Snippet Synchronizer is never empty:
blocks whose plain code trims to empty are discarded at extraction, and a
task with no surviving block is counted failed without writing. -/
theorem claim_C9 :
    (∀ (html : List Char) (b : CodeBlock), b ∈ extractCodeBlocks html → b.code ≠ []) ∧
    (∀ (examples : List ExampleRec) (fileExists : String → Bool)
        (env : String → Option String) (pr : String × List Char),
      pr ∈ (runSnippets examples fileExists env).2 → pr.2 ≠ []) := by
  constructor
  · exact extract_nonempty
  · intro examples fileExists env pr hpr
    simp only [runSnippets] at hpr
    rcases runFold_written env _ 0 0 [] pr hpr with hw | ⟨t, ht⟩
    · simp at hw
    · exact taskOutcome_nonempty env t pr.2 ht

/-- Witness for C9: a concrete extracted block and a concrete written
snippet file, both non-empty. -/
theorem claim_C9_witness :
    ((⟨[], toL "x"⟩ : CodeBlock).code ≠ []) ∧
    (("a.html", toL "x") : String × List Char).2 ≠ [] :=
  ⟨claim_C9.1 (toL "<pre><code>x</code></pre>") ⟨[], toL "x"⟩ (by decide),
   claim_C9.2 [⟨some "a", some "u"⟩] (fun _ => false)
     (fun _ => some "<pre><code>x</code></pre>") ("a.html", toL "x") (by decide)⟩

theorem pickCn_idem (p : Option (List Char)) (fresh : List Char) :
    pickCn (some (pickCn p fresh)) fresh = pickCn p fresh := by
  cases p with
  | none =>
    simp only [pickCn, isMostlyChineseOpt]
    by_cases h : isMostlyChinese fresh = true <;> simp [h]
  | some v =>
    by_cases h : isMostlyChinese v = true
    · simp [pickCn, isMostlyChineseOpt, h]
    · simp only [pickCn, isMostlyChineseOpt, h]
      by_cases h2 : isMostlyChinese fresh = true <;> simp [h, h2]

/-- C5: the merge policy keeps a prior translated field verbatim when the
`isMostlyChinese` heuristic accepts it and regenerates it (by the
deterministic translator) otherwise; consequently a second run that takes
the first run's output as its prior state produces identical `titleCn` and
`descriptionCn` fields. -/
theorem claim_C5 :
    (∀ v fresh : List Char, isMostlyChinese v = true → pickCn (some v) fresh = v) ∧
    (∀ v fresh : List Char, isMostlyChinese v = false → pickCn (some v) fresh = fresh) ∧
    (∀ (title description : List Char) (existing : Option CnPrior),
      mergeCn title description
        (some ⟨some (mergeCn title description existing).1,
               some (mergeCn title description existing).2⟩)
        = mergeCn title description existing) := by
  refine ⟨?_, ?_, ?_⟩
  · intro v fresh h
    simp [pickCn, isMostlyChineseOpt, h]
  · intro v fresh h
    simp [pickCn, isMostlyChineseOpt, h]
  · intro title description existing
    exact Prod.ext (pickCn_idem _ _) (pickCn_idem _ _)

/-- Witness for C5: the heuristic accepts a Chinese prior value (kept
verbatim) and rejects an English one (regenerated). -/
theorem claim_C5_witness :
    pickCn (some (toL "添加地图标记")) (toL "x") = toL "添加地图标记" ∧
    pickCn (some (toL "Add map markers")) (toL "x") = toL "x" :=
  ⟨claim_C5.1 (toL "添加地图标记") (toL "x") (by decide),
   claim_C5.2.1 (toL "Add map markers") (toL "x") (by decide)⟩

/-- C3 (counterexample): the claim says that whenever the first paragraph
after the first `<h1>` contains an `<img>` marker and the next paragraph
qualifies, the img paragraph is skipped.  `getDescription` has no image
test: a paragraph containing an `<img>` together with visible text
qualifies (its stripped text is non-empty) and is returned instead of the
next paragraph. -/
theorem claim_C3_counterexample :
    hasSubCI (toL "<img") (toL "<img src=\"x\">Cap") = true ∧
    pQualifies (toL "Good one.") = true ∧
    getDescription (toL "<h1>T</h1><p><img src=\"x\">Cap</p><p>Good one.</p>")
      = toL "Cap" ∧
    toL "Cap" ≠ toL "Good one." := by
  refine ⟨by decide, by decide, by decide, by decide⟩

/-- C3 (amended): `getDescription` skips a paragraph containing an `<img>`
only because the paragraph fails the non-empty-text test after tag
stripping: any paragraph whose stripped text is empty — in particular one
containing only an `<img>` tag — is skipped, and the next qualifying
paragraph's decoded text is returned. -/
theorem claim_C3_amended :
    (∀ raw, stripTags raw = [] → pQualifies raw = false) ∧
    getDescription (toL "<h1>T</h1><p><img src=\"pic.png\"></p><p>Good one.</p>")
      = toL "Good one." := by
  constructor
  · intro raw h
    simp [pQualifies, h]
  · decide

/-- Witness for C3 (amended): an image-only paragraph strips to the empty
text and is skipped. -/
theorem claim_C3_witness :
    pQualifies (toL "<img src=\"q\">") = false :=
  claim_C3_amended.1 (toL "<img src=\"q\">") (by decide)

end SyncPipeline
